import Mathlib

/-!
Verification development for the STR-genotyping core:
shallow embedding of `src/pcr_duplicates.cpp` (PCR duplicate removal) and of
`GenotyperBamProcessor::analyze_reads_and_phasing` (per-locus analysis), with
theorems settling the specification's testable properties.

Modelling conventions:
* machine integers (`int32_t` positions, counters) are modelled as `Int`/`Nat`
  (no overflow is relevant at the scales involved);
* `double` quantities (base-quality log-probabilities, phasing log-likelihoods)
  are modelled as `ℚ` — they are only stored and compared, never rounded;
* `printErrorAndDie` (process termination) is modelled as `Except.error`;
* external collaborators that live outside the analysed sources
  (`BaseQuality::sum_log_prob_correct`, `ExtractCigar`, EM training, the two
  genotypers) are universally-quantified function parameters, matching the
  spec's "external interfaces" section;
* C++ `assert`s are compiled out in release builds; where a claim needs the
  asserted fact it appears as an explicit hypothesis.
-/

/-- Lexicographic strict comparison of character lists; this is exactly the
`< 0` outcome of C++ `std::string::compare`. -/
def charListLt : List Char → List Char → Bool
  | [], [] => false
  | [], _ :: _ => true
  | _ :: _, [] => false
  | a :: as, b :: bs => if a < b then true else if b < a then false else charListLt as bs

/-- Strict lexicographic order on strings, via their character data
(models `std::string::compare(...) < 0`). -/
def strLt (a b : String) : Bool := charListLt a.data b.data

/-- The fields of `BamTools::BamAlignment` read by the analysed code:
alignment start position, base-quality string, read name, source file name,
the optional `RG` tag, and the CIGAR operations (opaque to this core; they are
only handed to the external `ExtractCigar`). -/
structure BamAlignment where
  Position : Int
  Qualities : String
  Name : String
  Filename : String
  rgTag : Option String
  CigarData : List (Char × Nat)
deriving DecidableEq, Repr

/-- Default-constructed `BamTools::BamAlignment`, used for the absent mate of a
single-ended `ReadPair` (its fields are never read in that case). -/
def emptyAln : BamAlignment :=
  { Position := -1, Qualities := "", Name := "", Filename := "", rgTag := none, CigarData := [] }

/-- The `ReadPair` class of `pcr_duplicates.cpp`: one or two alignments plus a
library identifier and the (min,max) fragment-start signature. -/
structure ReadPair where
  min_read_start : Int
  max_read_start : Int
  aln_one : BamAlignment
  aln_two : BamAlignment
  library : String
deriving DecidableEq, Repr

/-- The single-alignment `ReadPair` constructor: `min_read_start_` is the
sentinel `-1`, `max_read_start_` is the read's position. -/
def mkPairSingle (a : BamAlignment) (lib : String) : ReadPair :=
  { min_read_start := -1, max_read_start := a.Position,
    aln_one := a, aln_two := emptyAln, library := lib }

/-- The two-alignment `ReadPair` constructor: signature is the min/max of the
two alignment positions. -/
def mkPairDouble (a1 a2 : BamAlignment) (lib : String) : ReadPair :=
  { min_read_start := min a1.Position a2.Position,
    max_read_start := max a1.Position a2.Position,
    aln_one := a1, aln_two := a2, library := lib }

/-- `ReadPair::single_ended()`: true iff `min_read_start_ == -1`. -/
def ReadPair.single_ended (p : ReadPair) : Bool := p.min_read_start == -1

/-- `ReadPair::duplicate(pair)`: same library and identical
(min start, max start) signature. -/
def ReadPair.duplicate (p q : ReadPair) : Bool :=
  p.library == q.library && p.min_read_start == q.min_read_start
    && p.max_read_start == q.max_read_start

/-- `ReadPair::operator<`: lexicographic on (library, min start, max start);
the library comparison is `std::string::compare`. -/
def ReadPair.ltP (p q : ReadPair) : Bool :=
  if p.library == q.library then
    if p.min_read_start == q.min_read_start then
      decide (p.max_read_start < q.max_read_start)
    else decide (p.min_read_start < q.min_read_start)
  else strLt p.library q.library

/-- The duplicate-detection signature of a read pair. -/
def sigOf (p : ReadPair) : String × Int × Int :=
  (p.library, p.min_read_start, p.max_read_start)

/-- First match in an association list (models `std::map::find`). -/
def lookupStr : List (String × String) → String → Option String
  | [], _ => none
  | (k, v) :: rest, s => if k == s then some v else lookupStr rest s

/-- `get_library`: fetch the alignment's `RG` tag (fatal if absent), then look
the read group up in the read-group-to-library map (fatal if missing). -/
def get_library (aln : BamAlignment) (rg_to_library : List (String × String)) :
    Except String String :=
  match aln.rgTag with
  | none => .error "Failed to retrieve BAM alignment RG tag"
  | some rg =>
    match lookupStr rg_to_library rg with
    | none => .error ("No library found for read group " ++ rg ++ " in BAM file headers")
    | some lib => .ok lib

/-- Library resolution used by `remove_pcr_duplicates`: through the `RG` tag
when `use_bam_rgs`, otherwise `rg_to_library[aln.Filename]` — C++
`std::map::operator[]` silently default-constructs an empty string on a miss. -/
def libraryOf (use_bam_rgs : Bool) (rg_to_library : List (String × String))
    (aln : BamAlignment) : Except String String :=
  if use_bam_rgs then get_library aln rg_to_library
  else .ok ((lookupStr rg_to_library aln.Filename).getD "")

/-- Effectful map over a list, stopping at the first error (the shape of the
construction loops, whose `printErrorAndDie` aborts the whole run). -/
def mapE (f : α → Except String β) : List α → Except String (List β)
  | [] => .ok []
  | a :: as =>
    match f a with
    | .error e => .error e
    | .ok b =>
      match mapE f as with
      | .error e => .error e
      | .ok bs => .ok (b :: bs)

/-- The `read_pairs` vector built for one read-group: a two-alignment pair per
(paired STR read, mate) entry followed by a single-alignment pair per unpaired
STR read, each with its resolved library. -/
def buildPairs (use_bam_rgs : Bool) (m : List (String × String))
    (paired mates unpaired : List BamAlignment) : Except String (List ReadPair) :=
  match mapE (fun ab => (libraryOf use_bam_rgs m ab.1).map (mkPairDouble ab.1 ab.2))
      (paired.zip mates) with
  | .error e => .error e
  | .ok ds =>
    match mapE (fun a => (libraryOf use_bam_rgs m a).map (mkPairSingle a)) unpaired with
    | .error e => .error e
    | .ok ss => .ok (ds ++ ss)

/-- Insert a read pair into a list sorted by `ReadPair.ltP`. -/
def insertPair (p : ReadPair) : List ReadPair → List ReadPair
  | [] => [p]
  | q :: rest => if ReadPair.ltP q p then q :: insertPair p rest else p :: q :: rest

/-- Sorting by `ReadPair::operator<` (models `std::sort`, whose result is some
permutation sorted with respect to the comparator; insertion sort fixes one
such permutation). -/
def sortPairs : List ReadPair → List ReadPair
  | [] => []
  | p :: rest => insertPair p (sortPairs rest)

/-- Split off the maximal leading block of pairs that are duplicates of `p`,
returning (block, remaining suffix). -/
def takeRun (p : ReadPair) : List ReadPair → List ReadPair × List ReadPair
  | [] => ([], [])
  | q :: rest =>
    if q.duplicate p then
      ((takeRun p rest).1.cons q, (takeRun p rest).2)
    else ([], q :: rest)

/-- Fuel-driven decomposition of a list into its maximal runs of consecutive
duplicates, each run as (first element, rest of the run); the fuel only serves
structural termination and is irrelevant once at least the list length. -/
def runsF : Nat → List ReadPair → List (ReadPair × List ReadPair)
  | 0, _ => []
  | _ + 1, [] => []
  | n + 1, p :: rest => (p, (takeRun p rest).1) :: runsF n (takeRun p rest).2

/-- Decompose a list into its maximal runs of consecutive duplicates, each run
as (first element, rest of the run). -/
def runs (l : List ReadPair) : List (ReadPair × List ReadPair) :=
  runsF l.length l

/-- The best-pair selection the scan performs inside one duplicate set: keep the
incumbent unless the challenger's primary read has strictly higher summed
log-probability of correct base calls. -/
def selectFirstMax (slpc : String → ℚ) (p : ReadPair) : List ReadPair → ReadPair
  | [] => p
  | q :: rest =>
    selectFirstMax slpc
      (if slpc q.aln_one.Qualities > slpc p.aln_one.Qualities then q else p) rest

/-- The scan of the sorted `read_pairs` vector (`remove_pcr_duplicates`'s main
loop plus the final emission): returns the retained pairs in scan order and the
number of `dup_count++` increments. -/
def scanPairs (slpc : String → ℚ) (best : ReadPair) :
    List ReadPair → List ReadPair × Nat
  | [] => ([best], 0)
  | p :: rest =>
    if p.duplicate best then
      ((scanPairs slpc
          (if slpc p.aln_one.Qualities > slpc best.aln_one.Qualities then p else best) rest).1,
       (scanPairs slpc
          (if slpc p.aln_one.Qualities > slpc best.aln_one.Qualities then p else best) rest).2 + 1)
    else
      (best :: (scanPairs slpc p rest).1, (scanPairs slpc p rest).2)

/-- Per-read-group body of `remove_pcr_duplicates`: build the pairs, sort them,
scan; yields the retained pairs and this group's duplicate-counter increments. -/
def dedup_rg (slpc : String → ℚ) (use_bam_rgs : Bool) (m : List (String × String))
    (paired mates unpaired : List BamAlignment) : Except String (List ReadPair × Nat) :=
  match buildPairs use_bam_rgs m paired mates unpaired with
  | .error e => .error e
  | .ok ps =>
    match sortPairs ps with
    | [] => .ok ([], 0)
    | b :: rest => .ok (scanPairs slpc b rest)

/-- The rebuilt `paired_strs_by_rg[i]`: primary alignments of the retained
pairs that have a mate, in scan order. -/
def pairedOut (ret : List ReadPair) : List BamAlignment :=
  (ret.filter (fun p => !p.single_ended)).map (fun p => p.aln_one)

/-- The rebuilt `mate_pairs_by_rg[i]`: mate alignments of the retained pairs
that have a mate, in scan order. -/
def matesOut (ret : List ReadPair) : List BamAlignment :=
  (ret.filter (fun p => !p.single_ended)).map (fun p => p.aln_two)

/-- The rebuilt `unpaired_strs_by_rg[i]`: primary alignments of the retained
single-ended pairs, in scan order. -/
def unpairedOut (ret : List ReadPair) : List BamAlignment :=
  (ret.filter (fun p => p.single_ended)).map (fun p => p.aln_one)

/-- `remove_pcr_duplicates`: the three per-read-group vectors are given as one
list of triples (their outer lengths are asserted equal in the source); returns
the rebuilt triples and the total `dup_count`. -/
def remove_pcr_duplicates (slpc : String → ℚ) (use_bam_rgs : Bool)
    (m : List (String × String))
    (rgs : List (List BamAlignment × List BamAlignment × List BamAlignment)) :
    Except String
      (List (List BamAlignment × List BamAlignment × List BamAlignment) × Nat) :=
  match mapE (fun t => dedup_rg slpc use_bam_rgs m t.1 t.2.1 t.2.2) rgs with
  | .error e => .error e
  | .ok rs =>
    .ok (rs.map (fun rc => (pairedOut rc.1, matesOut rc.1, unpairedOut rc.1)),
         (rs.map (fun rc => rc.2)).sum)

/-- A genomic locus as used by `analyze_reads_and_phasing`: chromosome, start,
stop, repeat period. -/
structure Region where
  chrom : String
  start : Int
  stop : Int
  period : Int
deriving DecidableEq, Repr

/-- Length of the locus's reference allele, `stop - start + 1`. -/
def refAlleleLen (r : Region) : Int := r.stop - r.start + 1

/-- Stutter models are opaque to this core (trained or loaded, then handed to
genotypers); an abstract token type suffices. `copy()` is modelled as the
identity on this value type. -/
structure StutterModel where
  tag : Nat
deriving DecidableEq, Repr

/-- The process-wide counters of `GenotyperBamProcessor` touched by
`analyze_reads_and_phasing`. -/
structure GBPState where
  num_em_converge : Nat
  num_em_fail : Nat
  num_genotype_success : Nat
  num_genotype_fail : Nat
deriving DecidableEq, Repr

/-- Configuration fields of `GenotyperBamProcessor` read by
`analyze_reads_and_phasing`. -/
structure GBPConfig where
  MIN_TOTAL_READS : Int
  read_stutter_models : Bool
  use_seq_aligner : Bool
  output_str_gts : Bool
  output_alleles : Bool
  output_stutter_models : Bool
  recalc_stutter_model : Bool
  have_ref_vcf : Bool
  haploid_chroms : List String
  stutter_models : List (Region × StutterModel)

/-- External collaborators of the analysed code, per the spec's interface
section: `ExtractCigar`, EM training (`EMStutterGenotyper::train` plus the
model it learns), and the two genotyping calls. Each is an arbitrary function;
theorems hold for every instantiation. -/
structure Oracle where
  extractCigar : List (Char × Nat) → Int → Int → Int → Option Int
  train : Region → Bool → List (List Int) → List (List ℚ) → List (List ℚ) →
    List String → Bool
  trainedModel : Region → Bool → List (List Int) → List (List ℚ) → List (List ℚ) →
    List String → StutterModel
  seqGenotype : Region → Bool → List (List BamAlignment) → List (List ℚ) →
    List (List ℚ) → List String → String → StutterModel → Bool → Bool
  lenGenotype : Region → Bool → List (List Int) → List (List ℚ) → List (List ℚ) →
    List String → StutterModel → Bool

/-- What the extraction loop does with one read. -/
inductive ReadFate where
  | noSize
  | artifact
  | keep (bp : Int) (lp1 lp2 : ℚ)
deriving DecidableEq, Repr

/-- Per-read body of the extraction loop: run `ExtractCigar` on the window
padded by one period on each side; on success, exclude the read (with a
warning) when `bp_diff < -(stop - start + 1)`, otherwise record the difference
with the read's phasing log-likelihoods (both `0` when none were supplied). -/
def readFate (ec : List (Char × Nat) → Int → Int → Int → Option Int) (region : Region)
    (noPhase : Bool) (lp1 lp2 : ℚ) (aln : BamAlignment) : ReadFate :=
  match ec aln.CigarData aln.Position (region.start - region.period)
      (region.stop + region.period) with
  | none => .noSize
  | some d =>
    if d < -(region.stop - region.start + 1) then .artifact
    else .keep d (if noPhase then 0 else lp1) (if noPhase then 0 else lp2)

/-- Extraction outcome for one read-group. -/
structure GroupExtract where
  bps : List Int
  lp1s : List ℚ
  lp2s : List ℚ
  inf : Nat
  skip : Nat
  excluded : Nat
  warnings : List String
deriving DecidableEq, Repr

/-- The inner extraction loop over one read-group's alignments, `j` being the
current index into the group's phasing vectors. -/
def extractGroup (ec : List (Char × Nat) → Int → Int → Int → Option Int)
    (region : Region) (noPhase : Bool) (l1v l2v : List ℚ) :
    List BamAlignment → Nat → GroupExtract
  | [], _ => ⟨[], [], [], 0, 0, 0, []⟩
  | a :: rest, j =>
    let r := extractGroup ec region noPhase l1v l2v rest (j + 1)
    match readFate ec region noPhase (l1v.getD j 0) (l2v.getD j 0) a with
    | .noSize => { r with skip := r.skip + 1 }
    | .artifact =>
      { r with excluded := r.excluded + 1,
               warnings :=
                 ("WARNING: Excluding read with bp difference greater than reference allele: "
                   ++ a.Name) :: r.warnings }
    | .keep d x y =>
      { r with bps := d :: r.bps, lp1s := x :: r.lp1s, lp2s := y :: r.lp2s,
               inf := r.inf + 1 }

/-- Extraction outcome for the whole locus. -/
structure ExtractResult where
  bp_lengths : List (List Int)
  lp1s : List (List ℚ)
  lp2s : List (List ℚ)
  inf_reads : Nat
  skip_count : Nat
  excluded : Nat
  warnings : List String
deriving DecidableEq, Repr

/-- The outer extraction loop over read-groups; the phasing lists are walked in
step with the groups (group `i` reads `log_p1s[i]`/`log_p2s[i]`). -/
def extractGroups (ec : List (Char × Nat) → Int → Int → Int → Option Int)
    (region : Region) (noPhase : Bool) :
    List (List BamAlignment) → List (List ℚ) → List (List ℚ) → ExtractResult
  | [], _, _ => ⟨[], [], [], 0, 0, 0, []⟩
  | g :: gs, l1s, l2s =>
    let gr := extractGroup ec region noPhase (l1s.headD []) (l2s.headD []) g 0
    let r := extractGroups ec region noPhase gs l1s.tail l2s.tail
    ⟨gr.bps :: r.bp_lengths, gr.lp1s :: r.lp1s, gr.lp2s :: r.lp2s,
     gr.inf + r.inf_reads, gr.skip + r.skip_count, gr.excluded + r.excluded,
     gr.warnings ++ r.warnings⟩

/-- The full extraction pass of `analyze_reads_and_phasing` (lines 27-51):
`noPhase` is the source's `log_p1s.size() == 0` test. -/
def extract_phase (ec : List (Char × Nat) → Int → Int → Int → Option Int)
    (region : Region) (alignments : List (List BamAlignment))
    (log_p1s log_p2s : List (List ℚ)) : ExtractResult :=
  extractGroups ec region (log_p1s.length == 0) alignments log_p1s log_p2s

/-- The extraction result when the loop is skipped entirely: the per-group
vectors stay empty and all counters stay zero. -/
def emptyExtract (n : Nat) : ExtractResult :=
  ⟨List.replicate n [], List.replicate n [], List.replicate n [], 0, 0, 0, []⟩

/-- The guarded extraction pass: the loop runs only when the length-based EM
genotyper may be needed (`!read_stutter_models_ || !use_seq_aligner_`). -/
def extractOf (oracle : Oracle) (cfg : GBPConfig) (region : Region)
    (alignments : List (List BamAlignment)) (log_p1s log_p2s : List (List ℚ)) :
    ExtractResult :=
  if !cfg.read_stutter_models || !cfg.use_seq_aligner then
    extract_phase oracle.extractCigar region alignments log_p1s log_p2s
  else emptyExtract alignments.length

/-- How far `analyze_reads_and_phasing` got: aborted at the first or second
minimum-read check, or ran the stutter/genotyping phases. -/
inductive LocusStage where
  | exitFirst
  | exitSecond
  | completed
deriving DecidableEq, Repr

/-- Observable per-locus events: stage reached, stutter-model dictionary
lookups, EM training invocations, the resulting stutter model, and how many
times each genotyper's `genotype()` ran. -/
structure LocusTrace where
  stage : LocusStage
  model_lookups : Nat
  em_train_calls : Nat
  stutter_model : Option StutterModel
  seq_genotype_calls : Nat
  len_genotype_calls : Nat
deriving DecidableEq, Repr

/-- Total read count across read-groups (source lines 12-14). -/
def totalReads (alignments : List (List BamAlignment)) : Int :=
  ((alignments.map (fun g => g.length)).sum : Nat)

/-- Haploid flag: chromosome membership in the configured haploid set. -/
def haploidOf (cfg : GBPConfig) (region : Region) : Bool :=
  cfg.haploid_chroms.contains region.chrom

/-- Lookup in the preloaded stutter-model dictionary, keyed by region. -/
def lookupModel : List (Region × StutterModel) → Region → Option StutterModel
  | [], _ => none
  | (k, v) :: rest, r => if k == r then some v else lookupModel rest r

/-- Result of the stutter-model acquisition phase. -/
structure StutterOutcome where
  st : GBPState
  model : Option StutterModel
  lookups : Nat
  em_calls : Nat
deriving DecidableEq, Repr

/-- Stutter-model acquisition (source lines 63-90): in load mode, one
dictionary lookup (miss logs a warning and leaves the model null); in train
mode, one EM run — convergence bumps `num_em_converge_` and yields the learned
model, failure bumps `num_em_fail_` and leaves the model null. -/
def stutterPhase (oracle : Oracle) (cfg : GBPConfig) (st : GBPState) (region : Region)
    (haploid : Bool) (ext : ExtractResult) (rg_names : List String) : StutterOutcome :=
  if cfg.read_stutter_models then
    match lookupModel cfg.stutter_models region with
    | some m => ⟨st, some m, 1, 0⟩
    | none => ⟨st, none, 1, 0⟩
  else
    if oracle.train region haploid ext.bp_lengths ext.lp1s ext.lp2s rg_names then
      ⟨{ st with num_em_converge := st.num_em_converge + 1 },
       some (oracle.trainedModel region haploid ext.bp_lengths ext.lp1s ext.lp2s rg_names),
       0, 1⟩
    else ⟨{ st with num_em_fail := st.num_em_fail + 1 }, none, 0, 1⟩

/-- The genotyping block (source lines 94-145): runs only under a non-null
stutter model; dispatches to the sequence-based genotyper when
`use_seq_aligner_`, else to the length-based one; a successful sequence-based
genotype with `recalc_stutter_model_` set hits `printErrorAndDie`. Returns the
updated counters plus (sequence calls, length calls). -/
def genotypePhase (oracle : Oracle) (cfg : GBPConfig) (st : GBPState) (region : Region)
    (haploid : Bool) (alignments : List (List BamAlignment))
    (log_p1s log_p2s : List (List ℚ)) (rg_names : List String) (chrom_seq : String)
    (model : Option StutterModel) (ext : ExtractResult) :
    Except String (GBPState × Nat × Nat) :=
  match model with
  | none => .ok (st, 0, 0)
  | some sm =>
    if cfg.use_seq_aligner then
      if cfg.output_str_gts then
        if oracle.seqGenotype region haploid alignments log_p1s log_p2s rg_names
            chrom_seq sm cfg.have_ref_vcf then
          if cfg.recalc_stutter_model then
            .error "recalc_stutter_model option not yet implemented"
          else .ok ({ st with num_genotype_success := st.num_genotype_success + 1 }, 1, 0)
        else .ok ({ st with num_genotype_fail := st.num_genotype_fail + 1 }, 1, 0)
      else .ok (st, 0, 0)
    else
      if cfg.output_str_gts then
        if oracle.lenGenotype region haploid ext.bp_lengths ext.lp1s ext.lp2s rg_names sm then
          .ok ({ st with num_genotype_success := st.num_genotype_success + 1 }, 0, 1)
        else .ok ({ st with num_genotype_fail := st.num_genotype_fail + 1 }, 0, 1)
      else .ok (st, 0, 0)

/-- `GenotyperBamProcessor::analyze_reads_and_phasing`: the two minimum-read
checks, the guarded extraction pass, stutter-model acquisition, and the
genotyping block. Output-only parameters of the source (VCF/visualization
streams, `ref_allele`, timing clocks) are not modelled. -/
def analyze_reads_and_phasing (oracle : Oracle) (cfg : GBPConfig) (st : GBPState)
    (alignments : List (List BamAlignment)) (log_p1s log_p2s : List (List ℚ))
    (rg_names : List String) (region : Region) (chrom_seq : String) :
    Except String (GBPState × LocusTrace) :=
  if totalReads alignments < cfg.MIN_TOTAL_READS then
    .ok (st, ⟨.exitFirst, 0, 0, none, 0, 0⟩)
  else
    if totalReads alignments
        - (extractOf oracle cfg region alignments log_p1s log_p2s).skip_count
        < cfg.MIN_TOTAL_READS then
      .ok (st, ⟨.exitSecond, 0, 0, none, 0, 0⟩)
    else
      match genotypePhase oracle cfg
          (stutterPhase oracle cfg st region (haploidOf cfg region)
            (extractOf oracle cfg region alignments log_p1s log_p2s) rg_names).st
          region (haploidOf cfg region) alignments log_p1s log_p2s rg_names chrom_seq
          (stutterPhase oracle cfg st region (haploidOf cfg region)
            (extractOf oracle cfg region alignments log_p1s log_p2s) rg_names).model
          (extractOf oracle cfg region alignments log_p1s log_p2s) with
      | .error e => .error e
      | .ok (st2, sc, lc) =>
        .ok (st2,
          ⟨.completed,
           (stutterPhase oracle cfg st region (haploidOf cfg region)
             (extractOf oracle cfg region alignments log_p1s log_p2s) rg_names).lookups,
           (stutterPhase oracle cfg st region (haploidOf cfg region)
             (extractOf oracle cfg region alignments log_p1s log_p2s) rg_names).em_calls,
           (stutterPhase oracle cfg st region (haploidOf cfg region)
             (extractOf oracle cfg region alignments log_p1s log_p2s) rg_names).model,
           sc, lc⟩)

/-- The retained pair of a duplicate set is the earliest pair attaining the
set's maximal primary-read quality: the set splits into a strict-lower-quality
prefix, the retained pair, and a no-higher-quality suffix. -/
def isEarliestMax (slpc : String → ℚ) (run : List ReadPair) (m : ReadPair) : Prop :=
  ∃ l₁ l₂, run = l₁ ++ m :: l₂ ∧
    (∀ q ∈ l₁, slpc q.aln_one.Qualities < slpc m.aln_one.Qualities) ∧
    (∀ q ∈ l₂, slpc q.aln_one.Qualities ≤ slpc m.aln_one.Qualities)

/-- Constant-zero quality scorer used in concrete check inputs. -/
def slpc0 : String → ℚ := fun _ => 0

/-- Quality scorer distinguishing one quality string, used in concrete check
inputs for the quality-maximal selection. -/
def slpcPick : String → ℚ := fun s => if s == "QQ" then 1 else 0

/-- Read-group-to-library map for concrete check inputs: file `f` has library
`lib`. -/
def exMap : List (String × String) := [("f", "lib")]

/-- Concrete unpaired read at position 5 (duplicate set member). -/
def exD1 : BamAlignment := { emptyAln with Position := 5, Filename := "f", Name := "r1" }

/-- Concrete unpaired read at position 5 (duplicate set member). -/
def exD2 : BamAlignment := { emptyAln with Position := 5, Filename := "f", Name := "r2" }

/-- Concrete unpaired read at position 5 (duplicate set member). -/
def exD3 : BamAlignment := { emptyAln with Position := 5, Filename := "f", Name := "r3" }

/-- Concrete unpaired read at position 1 (distinct signature). -/
def exS1 : BamAlignment := { emptyAln with Position := 1, Filename := "f", Name := "s1" }

/-- Concrete unpaired read at position 2 (distinct signature). -/
def exS2 : BamAlignment := { emptyAln with Position := 2, Filename := "f", Name := "s2" }

/-- Concrete duplicate pair member with low-scoring qualities. -/
def exB1 : BamAlignment :=
  { emptyAln with Position := 5, Qualities := "AA", Filename := "f", Name := "b1" }

/-- Concrete duplicate pair member with high-scoring qualities. -/
def exB2 : BamAlignment :=
  { emptyAln with Position := 5, Qualities := "QQ", Filename := "f", Name := "b2" }

/-- Concrete read whose source file `g` has no library mapping. -/
def exMissing : BamAlignment := { emptyAln with Position := 3, Filename := "g", Name := "t1" }

/-- True iff an `Except` result is the fatal-error outcome (the model of
`printErrorAndDie`). -/
def errored {β : Type} : Except String β → Bool
  | .error _ => true
  | .ok _ => false

/-- Fully concrete oracle for check inputs: every CIGAR resolves to offset 0,
EM training never converges, both genotypers succeed. -/
def oracle0 : Oracle :=
  { extractCigar := fun _ _ _ _ => some 0,
    train := fun _ _ _ _ _ _ => false,
    trainedModel := fun _ _ _ _ _ _ => ⟨0⟩,
    seqGenotype := fun _ _ _ _ _ _ _ _ _ => true,
    lenGenotype := fun _ _ _ _ _ _ _ => true }

/-- Concrete locus for check inputs: ten reference bases, period two. -/
def region0 : Region := { chrom := "chr1", start := 100, stop := 109, period := 2 }

/-- Concrete counter state for check inputs. -/
def st0 : GBPState := ⟨3, 4, 5, 6⟩

/-- Concrete configuration in train mode with a minimum of ten reads. -/
def cfgLow : GBPConfig :=
  { MIN_TOTAL_READS := 10, read_stutter_models := false, use_seq_aligner := false,
    output_str_gts := true, output_alleles := false, output_stutter_models := false,
    recalc_stutter_model := false, have_ref_vcf := false, haploid_chroms := [],
    stutter_models := [] }

/-- Concrete configuration in train mode with a minimum of one read. -/
def cfgTrain : GBPConfig :=
  { MIN_TOTAL_READS := 1, read_stutter_models := false, use_seq_aligner := false,
    output_str_gts := true, output_alleles := false, output_stutter_models := false,
    recalc_stutter_model := false, have_ref_vcf := false, haploid_chroms := [],
    stutter_models := [] }

/-- Concrete configuration in load mode with the sequence-based genotyper. -/
def cfgSeq : GBPConfig :=
  { MIN_TOTAL_READS := 1, read_stutter_models := true, use_seq_aligner := true,
    output_str_gts := false, output_alleles := false, output_stutter_models := false,
    recalc_stutter_model := false, have_ref_vcf := false, haploid_chroms := [],
    stutter_models := [] }

theorem takeRun_snd_length (p : ReadPair) :
    ∀ l : List ReadPair, (takeRun p l).2.length ≤ l.length := by
  intro l
  induction l with
  | nil => simp [takeRun]
  | cons q rest ih =>
    by_cases h : q.duplicate p = true
    · simpa [takeRun, h] using Nat.le_succ_of_le ih
    · simp [takeRun, h]

theorem charListLt_asymm :
    ∀ a b : List Char, charListLt a b = true → charListLt b a = false := by
  intro a
  induction a with
  | nil => intro b h; cases b <;> simp_all [charListLt]
  | cons x xs ih =>
    intro b h
    cases b with
    | nil => simp [charListLt] at h
    | cons y ys =>
      simp only [charListLt] at h ⊢
      by_cases h1 : x < y
      · simp [h1, lt_asymm h1]
      · by_cases h2 : y < x
        · simp [h1, h2] at h
        · simp only [h1, h2, if_false] at h
          simp [h1, h2, ih ys h]

theorem charListLt_conn :
    ∀ a b : List Char, charListLt a b = false → charListLt b a = false → a = b := by
  intro a
  induction a with
  | nil => intro b h _; cases b <;> simp_all [charListLt]
  | cons x xs ih =>
    intro b h h'
    cases b with
    | nil => simp [charListLt] at h'
    | cons y ys =>
      simp only [charListLt] at h h'
      by_cases h1 : x < y
      · simp [h1] at h
      · by_cases h2 : y < x
        · simp [h1, h2] at h'
        · simp only [h1, h2, if_false] at h h'
          have hxy : x = y := le_antisymm (le_of_not_lt h2) (le_of_not_lt h1)
          rw [hxy, ih ys h h']

theorem charListLt_trans :
    ∀ a b c : List Char, charListLt a b = true → charListLt b c = true →
      charListLt a c = true := by
  intro a
  induction a with
  | nil =>
    intro b c h h'
    cases b with
    | nil => simp [charListLt] at h
    | cons y ys => cases c with
      | nil => simp [charListLt] at h'
      | cons z zs => simp [charListLt]
  | cons x xs ih =>
    intro b c h h'
    cases b with
    | nil => simp [charListLt] at h
    | cons y ys =>
      cases c with
      | nil => simp [charListLt] at h'
      | cons z zs =>
        simp only [charListLt] at h h' ⊢
        by_cases h1 : x < y
        · by_cases h2 : y < z
          · simp [lt_trans h1 h2]
          · by_cases h3 : z < y
            · simp [h2, h3] at h'
            · have : y = z := le_antisymm (le_of_not_lt h3) (le_of_not_lt h2)
              simp [← this, h1]
        · by_cases h2 : y < x
          · simp [h1, h2] at h
          · have hxy : x = y := le_antisymm (le_of_not_lt h2) (le_of_not_lt h1)
            subst hxy
            simp only [h1, h2, if_false] at h
            by_cases h3 : x < z
            · simp [h3]
            · by_cases h4 : z < x
              · simp [h3, h4] at h'
              · simp only [h3, h4, if_false] at h'
                simp [h3, h4, ih ys zs h h']

theorem strLt_asymm {a b : String} (h : strLt a b = true) : strLt b a = false :=
  charListLt_asymm a.data b.data h

theorem strLt_conn {a b : String} (h : strLt a b = false) (h' : strLt b a = false) :
    a = b := by
  cases a; cases b
  exact congrArg String.mk (charListLt_conn _ _ h h')

theorem strLt_trans {a b c : String} (h : strLt a b = true) (h' : strLt b c = true) :
    strLt a c = true :=
  charListLt_trans a.data b.data c.data h h'

theorem duplicate_iff_sig {p q : ReadPair} :
    p.duplicate q = true ↔ sigOf p = sigOf q := by
  simp only [ReadPair.duplicate, sigOf, Bool.and_eq_true, beq_iff_eq, decide_eq_true_eq,
    Prod.mk.injEq]
  tauto

theorem ltP_congr_left {p p' q : ReadPair} (h : sigOf p = sigOf p') :
    ReadPair.ltP p q = ReadPair.ltP p' q := by
  simp only [sigOf, Prod.mk.injEq] at h
  simp only [ReadPair.ltP, h.1, h.2.1, h.2.2]

theorem ltP_congr_right {p q q' : ReadPair} (h : sigOf q = sigOf q') :
    ReadPair.ltP p q = ReadPair.ltP p q' := by
  simp only [sigOf, Prod.mk.injEq] at h
  simp only [ReadPair.ltP, h.1, h.2.1, h.2.2]

theorem ltP_asymm {p q : ReadPair} (h : ReadPair.ltP p q = true) :
    ReadPair.ltP q p = false := by
  simp only [ReadPair.ltP, beq_iff_eq] at h ⊢
  by_cases e1 : p.library = q.library
  · rw [if_pos e1] at h
    rw [if_pos e1.symm]
    by_cases e2 : p.min_read_start = q.min_read_start
    · rw [if_pos e2] at h
      rw [if_pos e2.symm]
      simp only [decide_eq_true_eq] at h
      simpa using not_lt.mpr (le_of_lt h)
    · rw [if_neg e2] at h
      rw [if_neg (fun hh => e2 hh.symm)]
      simp only [decide_eq_true_eq] at h
      simpa using not_lt.mpr (le_of_lt h)
  · rw [if_neg e1] at h
    rw [if_neg (fun hh => e1 hh.symm)]
    exact strLt_asymm h

theorem ltP_conn {p q : ReadPair} (h : ReadPair.ltP p q = false)
    (h' : ReadPair.ltP q p = false) : sigOf p = sigOf q := by
  simp only [ReadPair.ltP, beq_iff_eq] at h h'
  by_cases e1 : p.library = q.library
  · rw [if_pos e1] at h
    rw [if_pos e1.symm] at h'
    by_cases e2 : p.min_read_start = q.min_read_start
    · rw [if_pos e2] at h
      rw [if_pos e2.symm] at h'
      simp only [decide_eq_false_iff_not, not_lt] at h h'
      simp only [sigOf, Prod.mk.injEq]
      exact ⟨e1, e2, le_antisymm h' h⟩
    · rw [if_neg e2] at h
      rw [if_neg (fun hh => e2 hh.symm)] at h'
      simp only [decide_eq_false_iff_not, not_lt] at h h'
      exact absurd (le_antisymm h' h) e2
  · rw [if_neg e1] at h
    rw [if_neg (fun hh => e1 hh.symm)] at h'
    exact absurd (strLt_conn h h') e1

theorem insertPair_cons_lt {p q : ReadPair} {rest : List ReadPair}
    (h : ReadPair.ltP q p = true) :
    insertPair p (q :: rest) = q :: insertPair p rest := by
  simp [insertPair, h]

theorem insertPair_cons_ge {p q : ReadPair} {rest : List ReadPair}
    (h : ReadPair.ltP q p = false) :
    insertPair p (q :: rest) = p :: q :: rest := by
  simp [insertPair, h]

theorem ltP_trans {p q r : ReadPair} (h : ReadPair.ltP p q = true)
    (h' : ReadPair.ltP q r = true) : ReadPair.ltP p r = true := by
  simp only [ReadPair.ltP, beq_iff_eq] at h h' ⊢
  by_cases e1 : p.library = q.library
  · rw [if_pos e1] at h
    by_cases e2 : q.library = r.library
    · rw [if_pos e2] at h'
      rw [if_pos (e1.trans e2)]
      by_cases m1 : p.min_read_start = q.min_read_start
      · rw [if_pos m1] at h
        by_cases m2 : q.min_read_start = r.min_read_start
        · rw [if_pos m2] at h'
          rw [if_pos (m1.trans m2)]
          simp only [decide_eq_true_eq] at h h' ⊢
          exact lt_trans h h'
        · rw [if_neg m2] at h'
          rw [if_neg (fun hh => m2 (m1.symm.trans hh))]
          simp only [decide_eq_true_eq] at h' ⊢
          exact m1 ▸ h'
      · rw [if_neg m1] at h
        simp only [decide_eq_true_eq] at h
        by_cases m2 : q.min_read_start = r.min_read_start
        · rw [if_neg (fun hh : p.min_read_start = r.min_read_start =>
            absurd (hh.trans m2.symm) (ne_of_lt h))]
          simp only [decide_eq_true_eq]
          exact m2 ▸ h
        · rw [if_neg m2] at h'
          simp only [decide_eq_true_eq] at h'
          rw [if_neg (fun hh : p.min_read_start = r.min_read_start =>
            absurd hh (ne_of_lt (lt_trans h h')))]
          simp only [decide_eq_true_eq]
          exact lt_trans h h'
    · rw [if_neg e2] at h'
      rw [if_neg (fun hh : p.library = r.library => e2 (e1.symm.trans hh))]
      exact e1 ▸ h'
  · rw [if_neg e1] at h
    by_cases e2 : q.library = r.library
    · rw [if_neg (fun hh : p.library = r.library => e1 (hh.trans e2.symm))]
      exact e2 ▸ h
    · rw [if_neg e2] at h'
      have hlt := strLt_trans h h'
      rw [if_neg (fun hh : p.library = r.library => by
        rw [hh] at hlt
        exact Bool.false_ne_true ((strLt_asymm hlt).symm.trans hlt))]
      exact hlt

theorem leP_trans {p q r : ReadPair} (h : ReadPair.ltP q p = false)
    (h' : ReadPair.ltP r q = false) : ReadPair.ltP r p = false := by
  by_cases hq : ReadPair.ltP q r = true
  · cases hrp : ReadPair.ltP r p
    · rfl
    · exact absurd (ltP_trans hq hrp) (by simp [h])
  · have hq' : ReadPair.ltP q r = false := by simpa using hq
    have hsig : sigOf r = sigOf q := (ltP_conn hq' h').symm
    rw [ltP_congr_left hsig, h]

theorem mem_insertPair {x p : ReadPair} :
    ∀ l : List ReadPair, x ∈ insertPair p l ↔ x = p ∨ x ∈ l := by
  intro l
  induction l with
  | nil => simp [insertPair]
  | cons q rest ih =>
    by_cases h : ReadPair.ltP q p = true
    · rw [insertPair_cons_lt h]
      simp only [List.mem_cons, ih]
      tauto
    · have hb : ReadPair.ltP q p = false := by simpa using h
      rw [insertPair_cons_ge hb]
      simp only [List.mem_cons]

theorem sorted_insertPair {p : ReadPair} :
    ∀ l : List ReadPair, l.Pairwise (fun a b => ReadPair.ltP b a = false) →
      (insertPair p l).Pairwise (fun a b => ReadPair.ltP b a = false) := by
  intro l
  induction l with
  | nil => intro _; simp [insertPair]
  | cons q rest ih =>
    intro hs
    rw [List.pairwise_cons] at hs
    by_cases h : ReadPair.ltP q p = true
    · rw [insertPair_cons_lt h, List.pairwise_cons]
      refine ⟨fun x hx => ?_, ih hs.2⟩
      rcases (mem_insertPair rest).mp hx with rfl | hx'
      · exact ltP_asymm h
      · exact hs.1 x hx'
    · have hqp : ReadPair.ltP q p = false := by simpa using h
      rw [insertPair_cons_ge hqp, List.pairwise_cons]
      refine ⟨fun x hx => ?_, List.pairwise_cons.mpr hs⟩
      rcases List.mem_cons.mp hx with rfl | hx'
      · exact hqp
      · exact leP_trans hqp (hs.1 x hx')

theorem sorted_sortPairs :
    ∀ l : List ReadPair,
      (sortPairs l).Pairwise (fun a b => ReadPair.ltP b a = false) := by
  intro l
  induction l with
  | nil => simp [sortPairs]
  | cons p rest ih => exact sorted_insertPair (sortPairs rest) ih

theorem mem_sortPairs {x : ReadPair} :
    ∀ l : List ReadPair, x ∈ sortPairs l ↔ x ∈ l := by
  intro l
  induction l with
  | nil => simp [sortPairs]
  | cons p rest ih =>
    show x ∈ insertPair p (sortPairs rest) ↔ _
    rw [mem_insertPair, ih, List.mem_cons]

theorem duplicate_congr_right {q p p' : ReadPair} (h : sigOf p = sigOf p') :
    q.duplicate p = q.duplicate p' := by
  by_cases hb : q.duplicate p' = true
  · rw [hb]
    exact duplicate_iff_sig.mpr (h ▸ duplicate_iff_sig.mp hb)
  · have hb' : q.duplicate p' = false := by simpa using hb
    rw [hb']
    cases hc : q.duplicate p
    · rfl
    · exact absurd (duplicate_iff_sig.mpr (duplicate_iff_sig.mp hc |>.trans h)) hb

theorem takeRun_cons_dup {p q : ReadPair} {rest : List ReadPair}
    (h : q.duplicate p = true) :
    takeRun p (q :: rest) = (q :: (takeRun p rest).1, (takeRun p rest).2) := by
  simp [takeRun, h]

theorem takeRun_cons_new {p q : ReadPair} {rest : List ReadPair}
    (h : q.duplicate p = false) :
    takeRun p (q :: rest) = ([], q :: rest) := by
  simp [takeRun, h]

theorem takeRun_congr {p p' : ReadPair} (h : sigOf p = sigOf p') :
    ∀ l : List ReadPair, takeRun p l = takeRun p' l := by
  intro l
  induction l with
  | nil => rfl
  | cons q rest ih =>
    by_cases hd : q.duplicate p = true
    · have hd' : q.duplicate p' = true := duplicate_congr_right h ▸ hd
      rw [takeRun_cons_dup hd, takeRun_cons_dup hd', ih]
    · have hd0 : q.duplicate p = false := by simpa using hd
      have hd' : q.duplicate p' = false := duplicate_congr_right h ▸ hd0
      rw [takeRun_cons_new hd0, takeRun_cons_new hd']

theorem takeRun_append (p : ReadPair) :
    ∀ l : List ReadPair, (takeRun p l).1 ++ (takeRun p l).2 = l := by
  intro l
  induction l with
  | nil => rfl
  | cons q rest ih =>
    by_cases hd : q.duplicate p = true
    · rw [takeRun_cons_dup hd]
      simpa using ih
    · have hd0 : q.duplicate p = false := by simpa using hd
      rw [takeRun_cons_new hd0]
      rfl

theorem mem_takeRun_fst {p x : ReadPair} :
    ∀ l : List ReadPair, x ∈ (takeRun p l).1 → x.duplicate p = true := by
  intro l
  induction l with
  | nil => intro h; simp [takeRun] at h
  | cons q rest ih =>
    intro hx
    by_cases hd : q.duplicate p = true
    · rw [takeRun_cons_dup hd] at hx
      rcases List.mem_cons.mp hx with rfl | hx'
      · exact hd
      · exact ih hx'
    · have hd0 : q.duplicate p = false := by simpa using hd
      rw [takeRun_cons_new hd0] at hx
      simp at hx

theorem takeRun_snd_head {p x : ReadPair} {s : List ReadPair} :
    ∀ l : List ReadPair, (takeRun p l).2 = x :: s → x.duplicate p = false := by
  intro l
  induction l with
  | nil => intro h; simp [takeRun] at h
  | cons q rest ih =>
    intro hx
    by_cases hd : q.duplicate p = true
    · rw [takeRun_cons_dup hd] at hx
      exact ih hx
    · have hd0 : q.duplicate p = false := by simpa using hd
      rw [takeRun_cons_new hd0] at hx
      cases hx
      exact hd0

theorem runsF_congr :
    ∀ (n m : Nat) (l : List ReadPair), l.length ≤ n → l.length ≤ m →
      runsF n l = runsF m l := by
  intro n
  induction n with
  | zero =>
    intro m l h1 _
    cases l with
    | nil => cases m <;> rfl
    | cons p rest => simp at h1
  | succ n ih =>
    intro m l h1 h2
    cases l with
    | nil => cases m <;> rfl
    | cons p rest =>
      cases m with
      | zero => simp at h2
      | succ m' =>
        show (p, (takeRun p rest).1) :: runsF n (takeRun p rest).2
          = (p, (takeRun p rest).1) :: runsF m' (takeRun p rest).2
        rw [ih m' (takeRun p rest).2
          (le_trans (takeRun_snd_length p rest) (Nat.succ_le_succ_iff.mp h1))
          (le_trans (takeRun_snd_length p rest) (Nat.succ_le_succ_iff.mp h2))]

theorem runs_nil : runs [] = [] := rfl

theorem runs_cons (p : ReadPair) (rest : List ReadPair) :
    runs (p :: rest) = (p, (takeRun p rest).1) :: runs (takeRun p rest).2 := by
  show (p, (takeRun p rest).1) :: runsF rest.length (takeRun p rest).2
    = (p, (takeRun p rest).1) :: runsF (takeRun p rest).2.length (takeRun p rest).2
  rw [runsF_congr rest.length (takeRun p rest).2.length (takeRun p rest).2
    (takeRun_snd_length p rest) le_rfl]

theorem runs_join :
    ∀ (n : Nat) (l : List ReadPair), l.length ≤ n →
      ((runs l).map (fun x => x.1 :: x.2)).flatten = l := by
  intro n
  induction n with
  | zero =>
    intro l h
    cases l with
    | nil => simp [runs_nil]
    | cons p rest => simp at h
  | succ n ih =>
    intro l h
    cases l with
    | nil => simp [runs_nil]
    | cons p rest =>
      rw [runs_cons, List.map_cons, List.flatten_cons]
      rw [ih (takeRun p rest).2
        (le_trans (takeRun_snd_length p rest) (Nat.succ_le_succ_iff.mp h))]
      simpa using congrArg (p :: ·) (takeRun_append p rest)

theorem runs_length_le :
    ∀ (n : Nat) (l : List ReadPair), l.length ≤ n →
      (runs l).length ≤ l.length := by
  intro n
  induction n with
  | zero =>
    intro l h
    cases l with
    | nil => simp [runs_nil]
    | cons p rest => simp at h
  | succ n ih =>
    intro l h
    cases l with
    | nil => simp [runs_nil]
    | cons p rest =>
      rw [runs_cons]
      simp only [List.length_cons, Nat.succ_le_succ_iff]
      exact le_trans
        (ih (takeRun p rest).2
          (le_trans (takeRun_snd_length p rest) (Nat.succ_le_succ_iff.mp h)))
        (takeRun_snd_length p rest)

theorem runs_mem {q : ReadPair} {t l : List ReadPair} (h : (q, t) ∈ runs l) :
    ∀ x ∈ q :: t, x ∈ l := by
  intro x hx
  rw [← runs_join l.length l le_rfl]
  exact List.mem_flatten.mpr ⟨q :: t, List.mem_map.mpr ⟨(q, t), h, rfl⟩, hx⟩

theorem runs_snd_dup :
    ∀ (n : Nat) (l : List ReadPair), l.length ≤ n →
      ∀ {q : ReadPair} {t : List ReadPair}, (q, t) ∈ runs l →
        ∀ x ∈ t, x.duplicate q = true := by
  intro n
  induction n with
  | zero =>
    intro l h q t hqt
    cases l with
    | nil => rw [runs_nil] at hqt; simp at hqt
    | cons p rest => simp at h
  | succ n ih =>
    intro l h q t hqt
    cases l with
    | nil => rw [runs_nil] at hqt; simp at hqt
    | cons p rest =>
      rw [runs_cons] at hqt
      rcases List.mem_cons.mp hqt with heq | hmem
      · cases heq
        intro x hx
        exact mem_takeRun_fst rest hx
      · exact ih (takeRun p rest).2
          (le_trans (takeRun_snd_length p rest) (Nat.succ_le_succ_iff.mp h)) hmem

theorem scanPairs_cons_dup {slpc : String → ℚ} {best p : ReadPair}
    {rest : List ReadPair} (h : p.duplicate best = true) :
    scanPairs slpc best (p :: rest)
      = ((scanPairs slpc
            (if slpc p.aln_one.Qualities > slpc best.aln_one.Qualities then p else best)
            rest).1,
         (scanPairs slpc
            (if slpc p.aln_one.Qualities > slpc best.aln_one.Qualities then p else best)
            rest).2 + 1) := by
  simp [scanPairs, h]

theorem scanPairs_cons_new {slpc : String → ℚ} {best p : ReadPair}
    {rest : List ReadPair} (h : p.duplicate best = false) :
    scanPairs slpc best (p :: rest)
      = (best :: (scanPairs slpc p rest).1, (scanPairs slpc p rest).2) := by
  simp [scanPairs, h]

theorem scanPairs_eq (slpc : String → ℚ) :
    ∀ (rest : List ReadPair) (b : ReadPair),
      scanPairs slpc b rest
        = ((runs (b :: rest)).map (fun x => selectFirstMax slpc x.1 x.2),
           rest.length + 1 - (runs (b :: rest)).length) := by
  intro rest
  induction rest with
  | nil =>
    intro b
    rw [runs_cons]
    simp [scanPairs, runs_nil, takeRun, selectFirstMax]
  | cons p rest' ih =>
    intro b
    by_cases hd : p.duplicate b = true
    · rw [scanPairs_cons_dup hd, ih]
      have hsig :
          sigOf (if slpc p.aln_one.Qualities > slpc b.aln_one.Qualities then p else b)
            = sigOf b := by
        by_cases hq : slpc p.aln_one.Qualities > slpc b.aln_one.Qualities
        · rw [if_pos hq]; exact duplicate_iff_sig.mp hd
        · rw [if_neg hq]
      have e1 : runs (b :: p :: rest')
          = (b, p :: (takeRun b rest').1) :: runs (takeRun b rest').2 := by
        rw [runs_cons, takeRun_cons_dup hd]
      have e2 : runs
            ((if slpc p.aln_one.Qualities > slpc b.aln_one.Qualities then p else b) :: rest')
          = ((if slpc p.aln_one.Qualities > slpc b.aln_one.Qualities then p else b),
             (takeRun b rest').1) :: runs (takeRun b rest').2 := by
        rw [runs_cons, takeRun_congr hsig rest']
      have h1 : (runs (takeRun b rest').2).length ≤ rest'.length :=
        le_trans (runs_length_le (takeRun b rest').2.length _ le_rfl)
          (takeRun_snd_length b rest')
      rw [e1, e2, Prod.mk.injEq]
      constructor
      · simp only [List.map_cons]
        rfl
      · simp only [List.length_cons]
        omega
    · have hd0 : p.duplicate b = false := by simpa using hd
      rw [scanPairs_cons_new hd0, ih]
      have e1 : runs (b :: p :: rest') = (b, []) :: runs (p :: rest') := by
        rw [runs_cons, takeRun_cons_new hd0]
      have h1 : (runs (p :: rest')).length ≤ rest'.length + 1 := by
        simpa using runs_length_le (p :: rest').length _ le_rfl
      rw [e1, Prod.mk.injEq]
      constructor
      · simp only [List.map_cons]
        rfl
      · simp only [List.length_cons]
        omega

theorem selectFirstMax_le (slpc : String → ℚ) :
    ∀ (r : List ReadPair) (p : ReadPair), ∀ x ∈ p :: r,
      slpc x.aln_one.Qualities ≤ slpc (selectFirstMax slpc p r).aln_one.Qualities := by
  intro r
  induction r with
  | nil =>
    intro p x hx
    rcases List.mem_cons.mp hx with rfl | hx'
    · exact le_rfl
    · simp at hx'
  | cons q r' ih =>
    intro p x hx
    show slpc x.aln_one.Qualities
      ≤ slpc (selectFirstMax slpc
          (if slpc q.aln_one.Qualities > slpc p.aln_one.Qualities then q else p) r').aln_one.Qualities
    have hp : slpc p.aln_one.Qualities
        ≤ slpc (if slpc q.aln_one.Qualities > slpc p.aln_one.Qualities then q else p).aln_one.Qualities := by
      by_cases hq : slpc q.aln_one.Qualities > slpc p.aln_one.Qualities
      · rw [if_pos hq]; exact le_of_lt hq
      · rw [if_neg hq]
    have hqle : slpc q.aln_one.Qualities
        ≤ slpc (if slpc q.aln_one.Qualities > slpc p.aln_one.Qualities then q else p).aln_one.Qualities := by
      by_cases hq : slpc q.aln_one.Qualities > slpc p.aln_one.Qualities
      · rw [if_pos hq]
      · rw [if_neg hq]; exact not_lt.mp hq
    have hhead := ih (if slpc q.aln_one.Qualities > slpc p.aln_one.Qualities then q else p)
      (if slpc q.aln_one.Qualities > slpc p.aln_one.Qualities then q else p)
      (List.mem_cons_self _ _)
    rcases List.mem_cons.mp hx with rfl | hx'
    · exact le_trans hp hhead
    · rcases List.mem_cons.mp hx' with rfl | hx''
      · exact le_trans hqle hhead
      · exact ih _ x (List.mem_cons_of_mem _ hx'')

theorem selectFirstMax_earliest (slpc : String → ℚ) :
    ∀ (r : List ReadPair) (p : ReadPair),
      isEarliestMax slpc (p :: r) (selectFirstMax slpc p r) := by
  intro r
  induction r with
  | nil => intro p; exact ⟨[], [], rfl, by simp, by simp⟩
  | cons q r' ih =>
    intro p
    by_cases hq : slpc q.aln_one.Qualities > slpc p.aln_one.Qualities
    · have hstep : selectFirstMax slpc p (q :: r') = selectFirstMax slpc q r' := by
        simp [selectFirstMax, hq]
      rw [hstep]
      obtain ⟨l₁, l₂, hsplit, hlt, hle⟩ := ih q
      refine ⟨p :: l₁, l₂, by rw [List.cons_append, ← hsplit], ?_, hle⟩
      intro x hx
      rcases List.mem_cons.mp hx with rfl | hx'
      · exact lt_of_lt_of_le hq (selectFirstMax_le slpc r' q q (List.mem_cons_self _ _))
      · exact hlt x hx'
    · have hstep : selectFirstMax slpc p (q :: r') = selectFirstMax slpc p r' := by
        simp [selectFirstMax, hq]
      rw [hstep]
      obtain ⟨l₁, l₂, hsplit, hlt, hle⟩ := ih p
      cases l₁ with
      | nil =>
        simp only [List.nil_append] at hsplit
        have hm : selectFirstMax slpc p r' = p := (List.cons.injEq _ _ _ _ ▸ hsplit).1.symm
        have hl₂ : l₂ = r' := (List.cons.injEq _ _ _ _ ▸ hsplit).2.symm
        refine ⟨[], q :: r', by rw [List.nil_append, hm], by simp, ?_⟩
        intro x hx
        rcases List.mem_cons.mp hx with rfl | hx'
        · rw [hm]; exact not_lt.mp hq
        · exact hle x (hl₂ ▸ hx')
      | cons a l₁' =>
        simp only [List.cons_append] at hsplit
        have ha : a = p := ((List.cons.injEq _ _ _ _).mp hsplit).1.symm
        have hr' : r' = l₁' ++ selectFirstMax slpc p r' :: l₂ :=
          ((List.cons.injEq _ _ _ _).mp hsplit).2
        have hplt : slpc p.aln_one.Qualities < slpc (selectFirstMax slpc p r').aln_one.Qualities :=
          ha ▸ hlt a (List.mem_cons_self _ _)
        refine ⟨p :: q :: l₁', l₂, ?_, ?_, hle⟩
        · rw [List.cons_append, List.cons_append, ← hr']
        · intro x hx
          rcases List.mem_cons.mp hx with rfl | hx'
          · exact hplt
          · rcases List.mem_cons.mp hx' with rfl | hx''
            · exact lt_of_le_of_lt (not_lt.mp hq) hplt
            · exact hlt x (List.mem_cons_of_mem _ hx'')

theorem runs_pairwise_sig :
    ∀ (n : Nat) (l : List ReadPair), l.length ≤ n →
      l.Pairwise (fun a b => ReadPair.ltP b a = false) →
      (runs l).Pairwise (fun x y => sigOf x.1 ≠ sigOf y.1) := by
  intro n
  induction n with
  | zero =>
    intro l h _
    cases l with
    | nil => rw [runs_nil]; exact List.Pairwise.nil
    | cons p rest => simp at h
  | succ n ih =>
    intro l h hs
    cases l with
    | nil => rw [runs_nil]; exact List.Pairwise.nil
    | cons p rest =>
      rw [runs_cons, List.pairwise_cons]
      have hsub : (takeRun p rest).2.Sublist rest := by
        conv_rhs => rw [← takeRun_append p rest]
        exact List.sublist_append_right _ _
      have hrest : rest.Pairwise (fun a b => ReadPair.ltP b a = false) :=
        (List.pairwise_cons.mp hs).2
      refine ⟨?_, ih _ (le_trans (takeRun_snd_length p rest)
        (Nat.succ_le_succ_iff.mp h)) (hrest.sublist hsub)⟩
      rintro ⟨x1, x2⟩ hx
      cases hsnd : (takeRun p rest).2 with
      | nil => rw [hsnd, runs_nil] at hx; simp at hx
      | cons q0 s' =>
        have hq0dup : q0.duplicate p = false := takeRun_snd_head rest hsnd
        have hq0sig : sigOf q0 ≠ sigOf p := fun hh => by
          rw [duplicate_iff_sig.mpr hh] at hq0dup
          exact Bool.noConfusion hq0dup
        rw [hsnd] at hx
        have hx1 : x1 ∈ q0 :: s' := runs_mem hx x1 (List.mem_cons_self _ _)
        have hq0in : q0 ∈ (takeRun p rest).2 := by
          rw [hsnd]; exact List.mem_cons_self _ _
        have hq0mem : q0 ∈ rest := hsub.subset hq0in
        have hq0p : ReadPair.ltP q0 p = false := (List.pairwise_cons.mp hs).1 q0 hq0mem
        have hpq0 : ReadPair.ltP p q0 = true := by
          cases hc : ReadPair.ltP p q0
          · exact absurd (ltP_conn hc hq0p).symm hq0sig
          · rfl
        rcases List.mem_cons.mp hx1 with rfl | hx''
        · exact fun hh => hq0sig hh.symm
        · have hsP : (takeRun p rest).2.Pairwise (fun a b => ReadPair.ltP b a = false) :=
            hrest.sublist hsub
          rw [hsnd] at hsP
          have hq0x : ReadPair.ltP x1 q0 = false := (List.pairwise_cons.mp hsP).1 x1 hx''
          intro hh
          rw [ltP_congr_left (hh.symm : sigOf x1 = sigOf p), hpq0] at hq0x
          exact Bool.noConfusion hq0x

theorem selectFirstMax_mem (slpc : String → ℚ) (r : List ReadPair) (p : ReadPair) :
    selectFirstMax slpc p r ∈ p :: r := by
  obtain ⟨l₁, l₂, hsplit, -, -⟩ := selectFirstMax_earliest slpc r p
  rw [hsplit]
  exact List.mem_append.mpr (Or.inr (List.mem_cons_self _ _))

theorem mapE_ok_mem {α β : Type} {f : α → Except String β} :
    ∀ (l : List α) {bs : List β}, mapE f l = .ok bs →
      ∀ b ∈ bs, ∃ a ∈ l, f a = .ok b := by
  intro l
  induction l with
  | nil =>
    intro bs h b hb
    simp only [mapE, Except.ok.injEq] at h
    rw [← h] at hb
    simp at hb
  | cons a as ih =>
    intro bs h b hb
    cases hfa : f a with
    | error e =>
      simp only [mapE, hfa] at h
      exact Except.noConfusion h
    | ok b0 =>
      cases hrec : mapE f as with
      | error e =>
        simp only [mapE, hfa, hrec] at h
        exact Except.noConfusion h
      | ok bs0 =>
        simp only [mapE, hfa, hrec, Except.ok.injEq] at h
        rw [← h] at hb
        rcases List.mem_cons.mp hb with rfl | hb'
        · exact ⟨a, List.mem_cons_self _ _, hfa⟩
        · obtain ⟨a', ha', hfa'⟩ := ih hrec b hb'
          exact ⟨a', List.mem_cons_of_mem _ ha', hfa'⟩

theorem mapE_error_of_mem {α β : Type} {f : α → Except String β} :
    ∀ (l : List α) (a : α), a ∈ l → ∀ e, f a = .error e →
      ∃ e', mapE f l = .error e' := by
  intro l
  induction l with
  | nil => intro a ha; simp at ha
  | cons a0 as ih =>
    intro a ha e hfa
    rcases List.mem_cons.mp ha with rfl | ha'
    · exact ⟨e, by simp only [mapE, hfa]⟩
    · cases hfa0 : f a0 with
      | error e0 => exact ⟨e0, by simp only [mapE, hfa0]⟩
      | ok b0 =>
        obtain ⟨e', he'⟩ := ih a ha' e hfa
        exact ⟨e', by simp only [mapE, hfa0, he']⟩

theorem except_map_ok_inv {β γ : Type} {x : Except String β} {g : β → γ} {p : γ}
    (h : x.map g = .ok p) : ∃ v, x = .ok v ∧ p = g v := by
  cases x with
  | error e => simp [Except.map] at h
  | ok v =>
    simp only [Except.map, Except.ok.injEq] at h
    exact ⟨v, rfl, h.symm⟩

theorem buildPairs_mem {u : Bool} {m : List (String × String)}
    {paired mates unpaired : List BamAlignment} {ps : List ReadPair}
    (h : buildPairs u m paired mates unpaired = .ok ps) :
    ∀ p ∈ ps,
      (∃ ab ∈ paired.zip mates, ∃ lib, p = mkPairDouble ab.1 ab.2 lib) ∨
      (∃ a ∈ unpaired, ∃ lib, p = mkPairSingle a lib) := by
  intro p hp
  cases hds : mapE (fun ab => (libraryOf u m ab.1).map (mkPairDouble ab.1 ab.2))
      (paired.zip mates) with
  | error e =>
    unfold buildPairs at h
    rw [hds] at h
    exact Except.noConfusion h
  | ok ds =>
    cases hss : mapE (fun a => (libraryOf u m a).map (mkPairSingle a)) unpaired with
    | error e =>
      unfold buildPairs at h
      rw [hds, hss] at h
      exact Except.noConfusion h
    | ok ss =>
      unfold buildPairs at h
      rw [hds, hss] at h
      rw [Except.ok.injEq] at h
      rw [← h] at hp
      rcases List.mem_append.mp hp with hpd | hpu
      · obtain ⟨ab, hab, hfab⟩ := mapE_ok_mem _ hds p hpd
        obtain ⟨lib, -, hlib⟩ := except_map_ok_inv hfab
        exact Or.inl ⟨ab, hab, lib, hlib⟩
      · obtain ⟨a, ha, hfa⟩ := mapE_ok_mem _ hss p hpu
        obtain ⟨lib, -, hlib⟩ := except_map_ok_inv hfa
        exact Or.inr ⟨a, ha, lib, hlib⟩

theorem dedup_rg_eq {slpc : String → ℚ} {u : Bool} {m : List (String × String)}
    {paired mates unpaired : List BamAlignment} {ps : List ReadPair}
    (hb : buildPairs u m paired mates unpaired = .ok ps) :
    dedup_rg slpc u m paired mates unpaired
      = .ok ((runs (sortPairs ps)).map (fun x => selectFirstMax slpc x.1 x.2),
             (sortPairs ps).length - (runs (sortPairs ps)).length) := by
  unfold dedup_rg
  rw [hb]
  cases hsort : sortPairs ps with
  | nil =>
    simp only [hsort, runs_nil, List.map_nil, List.length_nil]
  | cons b rest =>
    simp only [hsort]
    rw [scanPairs_eq]
    rfl

theorem dedup_rg_ok_build {slpc : String → ℚ} {u : Bool} {m : List (String × String)}
    {paired mates unpaired : List BamAlignment} {rc : List ReadPair × Nat}
    (h : dedup_rg slpc u m paired mates unpaired = .ok rc) :
    ∃ ps, buildPairs u m paired mates unpaired = .ok ps := by
  cases hb : buildPairs u m paired mates unpaired with
  | error e =>
    unfold dedup_rg at h
    rw [hb] at h
    exact Except.noConfusion h
  | ok ps => exact ⟨ps, rfl⟩

theorem dedup_retained_mem_build {slpc : String → ℚ} {u : Bool}
    {m : List (String × String)} {paired mates unpaired : List BamAlignment}
    {ps ret : List ReadPair} {cnt : Nat}
    (hb : buildPairs u m paired mates unpaired = .ok ps)
    (h : dedup_rg slpc u m paired mates unpaired = .ok (ret, cnt)) :
    ∀ p ∈ ret, p ∈ ps := by
  intro p hp
  rw [dedup_rg_eq hb, Except.ok.injEq, Prod.mk.injEq] at h
  rw [← h.1] at hp
  obtain ⟨x, hx, hsel⟩ := List.mem_map.mp hp
  have hmem : p ∈ x.1 :: x.2 := hsel ▸ selectFirstMax_mem slpc x.2 x.1
  have : p ∈ sortPairs ps := runs_mem (by simpa using hx) p hmem
  exact (mem_sortPairs ps).mp this

theorem runs_length_sum :
    ∀ (n : Nat) (l : List ReadPair), l.length ≤ n →
      (runs l).length + ((runs l).map (fun x => x.2.length)).sum = l.length := by
  intro n
  induction n with
  | zero =>
    intro l h
    cases l with
    | nil => simp [runs_nil]
    | cons p rest => simp at h
  | succ n ih =>
    intro l h
    cases l with
    | nil => simp [runs_nil]
    | cons p rest =>
      rw [runs_cons]
      have hres := ih (takeRun p rest).2
        (le_trans (takeRun_snd_length p rest) (Nat.succ_le_succ_iff.mp h))
      have hlen : (takeRun p rest).1.length + (takeRun p rest).2.length = rest.length := by
        rw [← List.length_append, takeRun_append]
      simp only [List.map_cons, List.sum_cons, List.length_cons]
      omega

/-- C1: after `remove_pcr_duplicates` returns, within each read-group no two
retained read pairs (the pairs whose alignments populate the rebuilt output
vectors, paired and unpaired alike) share the same
(library, min fragment start, max fragment start) signature. Stated over
`dedup_rg`, the per-read-group body of `remove_pcr_duplicates`, whose retained
list is exactly what the three output vectors are rebuilt from. -/
theorem dedup_retained_sig_distinct (slpc : String → ℚ) (u : Bool)
    (m : List (String × String)) (paired mates unpaired : List BamAlignment)
    (ret : List ReadPair) (cnt : Nat)
    (h : dedup_rg slpc u m paired mates unpaired = .ok (ret, cnt)) :
    (ret.map sigOf).Pairwise (fun a b => a ≠ b) := by
  obtain ⟨ps, hb⟩ := dedup_rg_ok_build h
  rw [dedup_rg_eq hb, Except.ok.injEq, Prod.mk.injEq] at h
  rw [← h.1, List.pairwise_map]
  have hsig : ∀ x ∈ runs (sortPairs ps),
      sigOf (selectFirstMax slpc x.1 x.2) = sigOf x.1 := by
    rintro ⟨p, t⟩ hx
    rcases List.mem_cons.mp (selectFirstMax_mem slpc t p) with heq | hmem
    · rw [heq]
    · exact duplicate_iff_sig.mp (runs_snd_dup (sortPairs ps).length _ le_rfl hx _ hmem)
  have hpair := runs_pairwise_sig (sortPairs ps).length _ le_rfl (sorted_sortPairs ps)
  rw [List.pairwise_map]
  exact hpair.imp_of_mem (fun {a} {b} ha hb' hne => by
    rw [hsig a ha, hsig b hb']; exact hne)

/-- C1 check at a concrete input: two unpaired reads at distinct positions are
both retained and carry distinct signatures. -/
theorem dedup_retained_sig_distinct_check :
    (([mkPairSingle exS1 "lib", mkPairSingle exS2 "lib"]).map sigOf).Pairwise
      (fun a b => a ≠ b) :=
  dedup_retained_sig_distinct slpc0 false exMap [] [] [exS1, exS2]
    [mkPairSingle exS1 "lib", mkPairSingle exS2 "lib"] 0 (by rfl)

/-- C2: within every duplicate set (maximal run of equal-signature pairs in the
sorted order), the retained pair is one whose primary read attains the maximal
summed log-probability of correct base calls over the set, and among ties the
earliest in sorted order is retained; the retained list is exactly one such
selection per run, in order. -/
theorem dedup_retained_quality_max (slpc : String → ℚ) (u : Bool)
    (m : List (String × String)) (paired mates unpaired : List BamAlignment)
    (ps ret : List ReadPair) (cnt : Nat)
    (hb : buildPairs u m paired mates unpaired = .ok ps)
    (h : dedup_rg slpc u m paired mates unpaired = .ok (ret, cnt)) :
    ret = (runs (sortPairs ps)).map (fun x => selectFirstMax slpc x.1 x.2) ∧
    ∀ x ∈ runs (sortPairs ps),
      (∀ q ∈ x.2, q.duplicate x.1 = true) ∧
      selectFirstMax slpc x.1 x.2 ∈ x.1 :: x.2 ∧
      (∀ q ∈ x.1 :: x.2,
        slpc q.aln_one.Qualities ≤ slpc (selectFirstMax slpc x.1 x.2).aln_one.Qualities) ∧
      isEarliestMax slpc (x.1 :: x.2) (selectFirstMax slpc x.1 x.2) := by
  rw [dedup_rg_eq hb, Except.ok.injEq, Prod.mk.injEq] at h
  refine ⟨h.1.symm, ?_⟩
  rintro ⟨p, t⟩ hx
  exact ⟨runs_snd_dup (sortPairs ps).length _ le_rfl hx,
         selectFirstMax_mem slpc t p,
         fun q hq => selectFirstMax_le slpc t p q hq,
         selectFirstMax_earliest slpc t p⟩

/-- C2 check at a concrete input: of two same-signature reads where the second
has strictly higher quality score, the second is the sole retained pair. -/
theorem dedup_retained_quality_max_check :
    [mkPairSingle exB2 "lib"]
      = (runs (sortPairs [mkPairSingle exB1 "lib", mkPairSingle exB2 "lib"])).map
          (fun x => selectFirstMax slpcPick x.1 x.2) :=
  (dedup_retained_quality_max slpcPick false exMap [] [] [exB1, exB2]
    [mkPairSingle exB1 "lib", mkPairSingle exB2 "lib"] [mkPairSingle exB2 "lib"] 1
    (by rfl) (by rfl)).1

/-- C5 counterexample: three reads with one shared signature form a single
duplicate set with more than one member, so the claim predicts a reported
count of 1; the code reports 2 (one increment per discarded pair, not one per
set). -/
theorem dup_count_per_set_counterexample :
    remove_pcr_duplicates slpc0 false exMap [([], [], [exD1, exD2, exD3])]
      = .ok ([([], [], [exD1])], 2) ∧
    ((runs (sortPairs [mkPairSingle exD1 "lib", mkPairSingle exD2 "lib",
        mkPairSingle exD3 "lib"])).filter (fun x => !x.2.isEmpty)).length = 1 ∧
    (2 : Nat) ≠ 1 :=
  ⟨rfl, rfl, by decide⟩

/-- C5 amended: the duplicate count reported by `remove_pcr_duplicates` equals
the number of discarded read pairs — each maximal duplicate set contributes
its size minus one (the number of its non-retained members), not one. Stated
per read-group; the reported total is the sum over read-groups by definition
of `remove_pcr_duplicates`. -/
theorem dup_count_counts_removed_pairs (slpc : String → ℚ) (u : Bool)
    (m : List (String × String)) (paired mates unpaired : List BamAlignment)
    (ps ret : List ReadPair) (cnt : Nat)
    (hb : buildPairs u m paired mates unpaired = .ok ps)
    (h : dedup_rg slpc u m paired mates unpaired = .ok (ret, cnt)) :
    cnt = ((runs (sortPairs ps)).map (fun x => x.2.length)).sum := by
  rw [dedup_rg_eq hb, Except.ok.injEq, Prod.mk.injEq] at h
  have hs := runs_length_sum (sortPairs ps).length (sortPairs ps) le_rfl
  have h2 := h.2
  omega

/-- C5 amended check at a concrete input: a three-member duplicate set yields a
count of two (its size minus one). -/
theorem dup_count_counts_removed_pairs_check :
    (2 : Nat) = ((runs (sortPairs [mkPairSingle exD1 "lib", mkPairSingle exD2 "lib",
        mkPairSingle exD3 "lib"])).map (fun x => x.2.length)).sum :=
  dup_count_counts_removed_pairs slpc0 false exMap [] [] [exD1, exD2, exD3]
    [mkPairSingle exD1 "lib", mkPairSingle exD2 "lib", mkPairSingle exD3 "lib"]
    [mkPairSingle exD1 "lib"] 2 (by rfl) (by rfl)

/-- C9: after deduplication the rebuilt paired-STR vector and mate vector of a
read-group have equal length, and the pair of alignments at each common index
is one of the original (same-index) (paired STR read, mate) pairs of that
read-group's input vectors. -/
theorem dedup_mates_stay_aligned (slpc : String → ℚ) (u : Bool)
    (m : List (String × String)) (paired mates unpaired : List BamAlignment)
    (ret : List ReadPair) (cnt : Nat)
    (h : dedup_rg slpc u m paired mates unpaired = .ok (ret, cnt)) :
    (pairedOut ret).length = (matesOut ret).length ∧
    ∀ ab ∈ (pairedOut ret).zip (matesOut ret), ab ∈ paired.zip mates := by
  obtain ⟨ps, hb⟩ := dedup_rg_ok_build h
  constructor
  · rw [pairedOut, matesOut, List.length_map, List.length_map]
  · intro ab hab
    rw [pairedOut, matesOut, List.zip_map'] at hab
    obtain ⟨p, hpmem, hpab⟩ := List.mem_map.mp hab
    have hps : p ∈ ps :=
      dedup_retained_mem_build hb h p (List.mem_of_mem_filter hpmem)
    have hnotsingle : p.single_ended = false := by
      have := List.of_mem_filter hpmem
      simpa using this
    rcases buildPairs_mem hb p hps with ⟨ab', hab', lib, hdouble⟩ | ⟨a, -, lib, hsingle⟩
    · rw [← hpab, hdouble]
      simpa using hab'
    · rw [hsingle] at hnotsingle
      simp [ReadPair.single_ended, mkPairSingle] at hnotsingle

/-- C9 check at a concrete input: one paired read with its mate passes through
deduplication with the pairing intact. -/
theorem dedup_mates_stay_aligned_check :
    (exS1, exS2) ∈ [exS1].zip [exS2] :=
  (dedup_mates_stay_aligned slpc0 false exMap [exS1] [exS2] []
    [mkPairDouble exS1 exS2 "lib"] 0 (by rfl)).2 (exS1, exS2) (by decide)

/-- C6 counterexample: with `use_bam_rgs = false`, a read whose observed
read-group key (its file name `g`) has no library mapping is processed
without any fatal error — the library silently defaults to the empty string
(C++ `std::map::operator[]`), and the read is retained. -/
theorem missing_library_silent_default_counterexample :
    libraryOf false exMap exMissing = .ok "" ∧
    remove_pcr_duplicates slpc0 false exMap [([], [], [exMissing])]
      = .ok ([([], [], [exMissing])], 0) ∧
    errored (remove_pcr_duplicates slpc0 false exMap [([], [], [exMissing])]) = false :=
  ⟨rfl, rfl, rfl⟩

/-- C6 amended: when BAM read-group tags are in use (`use_bam_rgs = true`), a
processed read with an absent `RG` tag, or whose read group has no library
mapping, makes the whole `remove_pcr_duplicates` run terminate with a fatal
error; with `use_bam_rgs = false` a missing file-name mapping instead silently
yields the empty-string library (see the counterexample). -/
theorem missing_rg_or_library_fatal (slpc : String → ℚ) (m : List (String × String))
    (rgs : List (List BamAlignment × List BamAlignment × List BamAlignment))
    (t : List BamAlignment × List BamAlignment × List BamAlignment)
    (aln : BamAlignment)
    (ht : t ∈ rgs)
    (hmem : (∃ b, (aln, b) ∈ t.1.zip t.2.1) ∨ aln ∈ t.2.2)
    (hbad : aln.rgTag = none ∨ ∃ rg, aln.rgTag = some rg ∧ lookupStr m rg = none) :
    errored (remove_pcr_duplicates slpc true m rgs) = true := by
  have h1 : libraryOf true m aln = get_library aln m := by simp [libraryOf]
  have hlib : ∃ e0, libraryOf true m aln = .error e0 := by
    rcases hbad with htag | ⟨rg, htag, hlk⟩
    · exact ⟨"Failed to retrieve BAM alignment RG tag",
        by rw [h1]; simp only [get_library, htag]⟩
    · exact ⟨"No library found for read group " ++ rg ++ " in BAM file headers",
        by rw [h1]; simp only [get_library, htag, hlk]⟩
  obtain ⟨e0, he0⟩ := hlib
  have hbuild : ∃ e1, buildPairs true m t.1 t.2.1 t.2.2 = .error e1 := by
    rcases hmem with ⟨b, hzip⟩ | hun
    · have hf1 : (fun (ab : BamAlignment × BamAlignment) =>
          (libraryOf true m ab.1).map (mkPairDouble ab.1 ab.2)) (aln, b) = .error e0 := by
        show (libraryOf true m aln).map (mkPairDouble aln b) = .error e0
        rw [he0]
        rfl
      obtain ⟨e1, he1⟩ := @mapE_error_of_mem _ _
        (fun ab => (libraryOf true m ab.1).map (mkPairDouble ab.1 ab.2))
        (t.1.zip t.2.1) (aln, b) hzip e0 hf1
      exact ⟨e1, by unfold buildPairs; rw [he1]⟩
    · cases hds : mapE (fun ab => (libraryOf true m ab.1).map (mkPairDouble ab.1 ab.2))
          (t.1.zip t.2.1) with
      | error e => exact ⟨e, by unfold buildPairs; rw [hds]⟩
      | ok ds =>
        have hf2 : (fun (a : BamAlignment) =>
            (libraryOf true m a).map (mkPairSingle a)) aln = .error e0 := by
          show (libraryOf true m aln).map (mkPairSingle aln) = .error e0
          rw [he0]
          rfl
        obtain ⟨e2, he2⟩ := @mapE_error_of_mem _ _
          (fun a => (libraryOf true m a).map (mkPairSingle a)) t.2.2 aln hun e0 hf2
        exact ⟨e2, by unfold buildPairs; rw [hds, he2]⟩
  obtain ⟨e1, he1⟩ := hbuild
  have hded : (fun (t : List BamAlignment × List BamAlignment × List BamAlignment) =>
      dedup_rg slpc true m t.1 t.2.1 t.2.2) t = .error e1 := by
    show dedup_rg slpc true m t.1 t.2.1 t.2.2 = .error e1
    unfold dedup_rg; rw [he1]
  obtain ⟨e3, he3⟩ := @mapE_error_of_mem _ _
    (fun t => dedup_rg slpc true m t.1 t.2.1 t.2.2) rgs t ht e1 hded
  unfold remove_pcr_duplicates
  rw [he3]
  rfl

/-- C6 amended check at a concrete input: a read without an `RG` tag makes the
run (with `use_bam_rgs = true`) end in the fatal-error outcome. -/
theorem missing_rg_or_library_fatal_check :
    errored (remove_pcr_duplicates slpc0 true exMap [([], [], [exMissing])]) = true :=
  missing_rg_or_library_fatal slpc0 exMap [([], [], [exMissing])]
    ([], [], [exMissing]) exMissing (by decide) (Or.inr (by decide)) (Or.inl rfl)

/-- C3: a locus whose total read count is below `MIN_TOTAL_READS` is abandoned
at the first check: no stutter-model lookup, no EM training, no genotyping
call of either kind, and every process-wide counter is returned unchanged. -/
theorem low_total_reads_skips_everything (oracle : Oracle) (cfg : GBPConfig)
    (st : GBPState) (alignments : List (List BamAlignment))
    (log_p1s log_p2s : List (List ℚ)) (rg_names : List String) (region : Region)
    (chrom_seq : String)
    (h : totalReads alignments < cfg.MIN_TOTAL_READS) :
    analyze_reads_and_phasing oracle cfg st alignments log_p1s log_p2s rg_names
        region chrom_seq
      = .ok (st, ⟨.exitFirst, 0, 0, none, 0, 0⟩) := by
  unfold analyze_reads_and_phasing
  rw [if_pos h]

/-- C3 check at a concrete input: zero reads against a minimum of ten. -/
theorem low_total_reads_skips_everything_check :
    analyze_reads_and_phasing oracle0 cfgLow st0 [] [] [] [] region0 ""
      = .ok (st0, ⟨.exitFirst, 0, 0, none, 0, 0⟩) :=
  low_total_reads_skips_everything oracle0 cfgLow st0 [] [] [] [] region0 ""
    (by decide)

/-- C4: in train mode, when the locus passes both minimum-read checks and EM
training does not converge, `num_em_fail_` is incremented exactly once (all
other counters unchanged), the stutter model stays null, and the entire
genotyping block — both the sequence-based and the length-based path — is
skipped. -/
theorem em_failure_counts_once_and_skips_genotyping (oracle : Oracle)
    (cfg : GBPConfig) (st : GBPState) (alignments : List (List BamAlignment))
    (log_p1s log_p2s : List (List ℚ)) (rg_names : List String) (region : Region)
    (chrom_seq : String)
    (hmode : cfg.read_stutter_models = false)
    (h1 : ¬ totalReads alignments < cfg.MIN_TOTAL_READS)
    (h2 : ¬ totalReads alignments
        - ((extractOf oracle cfg region alignments log_p1s log_p2s).skip_count : Int)
        < cfg.MIN_TOTAL_READS)
    (hfail : oracle.train region (haploidOf cfg region)
        (extractOf oracle cfg region alignments log_p1s log_p2s).bp_lengths
        (extractOf oracle cfg region alignments log_p1s log_p2s).lp1s
        (extractOf oracle cfg region alignments log_p1s log_p2s).lp2s rg_names
      = false) :
    analyze_reads_and_phasing oracle cfg st alignments log_p1s log_p2s rg_names
        region chrom_seq
      = .ok ({ st with num_em_fail := st.num_em_fail + 1 },
             ⟨.completed, 0, 1, none, 0, 0⟩) := by
  unfold analyze_reads_and_phasing
  rw [if_neg h1, if_neg h2]
  have hsp : stutterPhase oracle cfg st region (haploidOf cfg region)
      (extractOf oracle cfg region alignments log_p1s log_p2s) rg_names
      = ⟨{ st with num_em_fail := st.num_em_fail + 1 }, none, 0, 1⟩ := by
    unfold stutterPhase
    rw [if_neg (fun hh => Bool.noConfusion (hmode ▸ hh)),
        if_neg (fun hh => Bool.noConfusion (hfail ▸ hh))]
  rw [hsp]
  rfl

/-- C4 check at a concrete input: one read, minimum one, training fails. -/
theorem em_failure_counts_once_check :
    analyze_reads_and_phasing oracle0 cfgTrain st0 [[exS1]] [] [] ["rg"] region0 ""
      = .ok ({ st0 with num_em_fail := st0.num_em_fail + 1 },
             ⟨.completed, 0, 1, none, 0, 0⟩) :=
  em_failure_counts_once_and_skips_genotyping oracle0 cfgTrain st0 [[exS1]] [] []
    ["rg"] region0 "" rfl (by decide) (by decide) rfl

/-- C7: for a read whose CIGAR-derived length difference is computed
successfully, a difference of exactly minus the reference-allele length
(`-(stop - start + 1)`) is retained as evidence (the loop records it), while a
difference one smaller is excluded as an artifact (the warning branch). -/
theorem bp_diff_boundary :
    (∀ (ec : List (Char × Nat) → Int → Int → Int → Option Int) (region : Region)
        (noPhase : Bool) (lp1 lp2 : ℚ) (aln : BamAlignment),
      ec aln.CigarData aln.Position (region.start - region.period)
          (region.stop + region.period) = some (-(refAlleleLen region)) →
      readFate ec region noPhase lp1 lp2 aln
        = .keep (-(refAlleleLen region)) (if noPhase then 0 else lp1)
            (if noPhase then 0 else lp2)) ∧
    (∀ (ec : List (Char × Nat) → Int → Int → Int → Option Int) (region : Region)
        (noPhase : Bool) (lp1 lp2 : ℚ) (aln : BamAlignment),
      ec aln.CigarData aln.Position (region.start - region.period)
          (region.stop + region.period) = some (-(refAlleleLen region) - 1) →
      readFate ec region noPhase lp1 lp2 aln = .artifact) := by
  constructor
  · intro ec region noPhase lp1 lp2 aln h
    unfold readFate
    simp only [h]
    rw [if_neg (by unfold refAlleleLen; omega)]
  · intro ec region noPhase lp1 lp2 aln h
    unfold readFate
    simp only [h]
    rw [if_pos (by unfold refAlleleLen; omega)]

/-- C7 check at a concrete input: reference-allele length 10, so an offset of
-10 is kept and -11 is excluded. -/
theorem bp_diff_boundary_check :
    readFate (fun _ _ _ _ => some (-10)) region0 true 0 0 exS1 = .keep (-10) 0 0 ∧
    readFate (fun _ _ _ _ => some (-11)) region0 true 0 0 exS1 = .artifact :=
  ⟨bp_diff_boundary.1 (fun _ _ _ _ => some (-10)) region0 true 0 0 exS1 rfl,
   bp_diff_boundary.2 (fun _ _ _ _ => some (-11)) region0 true 0 0 exS1 rfl⟩

theorem readFate_keep_inv {ec : List (Char × Nat) → Int → Int → Int → Option Int}
    {region : Region} {noPhase : Bool} {lp1 lp2 : ℚ} {aln : BamAlignment}
    {d : Int} {x y : ℚ}
    (h : readFate ec region noPhase lp1 lp2 aln = .keep d x y) :
    x = (if noPhase then 0 else lp1) ∧ y = (if noPhase then 0 else lp2) := by
  unfold readFate at h
  cases hec : ec aln.CigarData aln.Position (region.start - region.period)
      (region.stop + region.period) with
  | none =>
    simp only [hec] at h
    exact ReadFate.noConfusion h
  | some d' =>
    simp only [hec] at h
    by_cases hc : d' < -(region.stop - region.start + 1)
    · rw [if_pos hc] at h
      exact ReadFate.noConfusion h
    · rw [if_neg hc] at h
      simp only [ReadFate.keep.injEq] at h
      exact ⟨h.2.1.symm, h.2.2.symm⟩

theorem extractGroup_lp_zero (ec : List (Char × Nat) → Int → Int → Int → Option Int)
    (region : Region) (l1v l2v : List ℚ) :
    ∀ (alns : List BamAlignment) (j : Nat),
      (∀ x ∈ (extractGroup ec region true l1v l2v alns j).lp1s, x = 0) ∧
      (∀ x ∈ (extractGroup ec region true l1v l2v alns j).lp2s, x = 0) := by
  intro alns
  induction alns with
  | nil =>
    intro j
    constructor <;> (intro x hx; simp [extractGroup] at hx)
  | cons a rest ih =>
    intro j
    cases hf : readFate ec region true (l1v.getD j 0) (l2v.getD j 0) a with
    | noSize =>
      constructor
      · intro x hx
        simp only [extractGroup, hf] at hx
        exact (ih (j + 1)).1 x hx
      · intro x hx
        simp only [extractGroup, hf] at hx
        exact (ih (j + 1)).2 x hx
    | artifact =>
      constructor
      · intro x hx
        simp only [extractGroup, hf] at hx
        exact (ih (j + 1)).1 x hx
      · intro x hx
        simp only [extractGroup, hf] at hx
        exact (ih (j + 1)).2 x hx
    | keep d x0 y0 =>
      obtain ⟨hx0, hy0⟩ := readFate_keep_inv hf
      constructor
      · intro x hx
        simp only [extractGroup, hf] at hx
        rcases List.mem_cons.mp hx with rfl | hx'
        · simpa using hx0
        · exact (ih (j + 1)).1 x hx'
      · intro x hx
        simp only [extractGroup, hf] at hx
        rcases List.mem_cons.mp hx with rfl | hx'
        · simpa using hy0
        · exact (ih (j + 1)).2 x hx'

theorem extractGroups_lp_zero (ec : List (Char × Nat) → Int → Int → Int → Option Int)
    (region : Region) :
    ∀ (gs : List (List BamAlignment)) (l1s l2s : List (List ℚ)),
      (∀ g ∈ (extractGroups ec region true gs l1s l2s).lp1s, ∀ x ∈ g, x = 0) ∧
      (∀ g ∈ (extractGroups ec region true gs l1s l2s).lp2s, ∀ x ∈ g, x = 0) := by
  intro gs
  induction gs with
  | nil =>
    intro l1s l2s
    constructor <;> (intro g hg; simp [extractGroups] at hg)
  | cons g0 gs ih =>
    intro l1s l2s
    constructor
    · intro g hg
      simp only [extractGroups] at hg
      rcases List.mem_cons.mp hg with rfl | hg'
      · exact fun x hx => (extractGroup_lp_zero ec region (l1s.headD []) (l2s.headD []) g0 0).1 x hx
      · exact (ih l1s.tail l2s.tail).1 g hg'
    · intro g hg
      simp only [extractGroups] at hg
      rcases List.mem_cons.mp hg with rfl | hg'
      · exact fun x hx => (extractGroup_lp_zero ec region (l1s.headD []) (l2s.headD []) g0 0).2 x hx
      · exact (ih l1s.tail l2s.tail).2 g hg'

/-- C8: when no phasing log-likelihoods are supplied for the locus (the outer
`log_p1s` vector is empty), every read that contributes a length-difference
record is assigned phasing log-likelihood 0 for both haplotypes. -/
theorem no_phasing_gives_zero_lls (ec : List (Char × Nat) → Int → Int → Int → Option Int)
    (region : Region) (alignments : List (List BamAlignment))
    (log_p2s : List (List ℚ)) :
    (∀ g ∈ (extract_phase ec region alignments [] log_p2s).lp1s, ∀ x ∈ g, x = 0) ∧
    (∀ g ∈ (extract_phase ec region alignments [] log_p2s).lp2s, ∀ x ∈ g, x = 0) :=
  extractGroups_lp_zero ec region alignments [] log_p2s

/-- C8 check at a concrete input: a read recorded without phasing information
carries the zero log-likelihood the theorem asserts. -/
theorem no_phasing_gives_zero_lls_check : (0 : ℚ) = 0 :=
  (no_phasing_gives_zero_lls (fun _ _ _ _ => some 0) region0 [[exS1]] []).1
    [0] (by decide) 0 (by decide)

/-- C10: with a preloaded stutter model and the sequence-based genotyper both
enabled, the per-read extraction loop is skipped entirely — no read is skipped
or excluded, no warning is logged — and the second minimum-read check can
never be the one that abandons the locus. -/
theorem seq_mode_skips_extraction (oracle : Oracle) (cfg : GBPConfig)
    (st : GBPState) (alignments : List (List BamAlignment))
    (log_p1s log_p2s : List (List ℚ)) (rg_names : List String) (region : Region)
    (chrom_seq : String)
    (h1 : cfg.read_stutter_models = true) (h2 : cfg.use_seq_aligner = true) :
    extractOf oracle cfg region alignments log_p1s log_p2s
      = emptyExtract alignments.length ∧
    (extractOf oracle cfg region alignments log_p1s log_p2s).skip_count = 0 ∧
    (extractOf oracle cfg region alignments log_p1s log_p2s).excluded = 0 ∧
    (extractOf oracle cfg region alignments log_p1s log_p2s).warnings = [] ∧
    ∀ st' tr,
      analyze_reads_and_phasing oracle cfg st alignments log_p1s log_p2s rg_names
          region chrom_seq = .ok (st', tr) →
      tr.stage ≠ .exitSecond := by
  have hext : extractOf oracle cfg region alignments log_p1s log_p2s
      = emptyExtract alignments.length := by
    unfold extractOf
    rw [h1, h2]
    rfl
  refine ⟨hext, by rw [hext]; rfl, by rw [hext]; rfl, by rw [hext]; rfl, ?_⟩
  intro st' tr hres
  unfold analyze_reads_and_phasing at hres
  by_cases hc1 : totalReads alignments < cfg.MIN_TOTAL_READS
  · rw [if_pos hc1] at hres
    rw [Except.ok.injEq, Prod.mk.injEq] at hres
    rw [← hres.2]
    exact fun hh => LocusStage.noConfusion hh
  · rw [if_neg hc1, hext] at hres
    have hc2 : ¬ (totalReads alignments
        - ((emptyExtract alignments.length).skip_count : Int) < cfg.MIN_TOTAL_READS) := by
      simpa using hc1
    rw [if_neg hc2] at hres
    split at hres
    · exact Except.noConfusion hres
    · rw [Except.ok.injEq, Prod.mk.injEq] at hres
      rw [← hres.2]
      exact fun hh => LocusStage.noConfusion hh

/-- C10 check at a concrete input: load mode with the sequence genotyper keeps
every extraction counter at zero. -/
theorem seq_mode_skips_extraction_check :
    (extractOf oracle0 cfgSeq region0 [[exS1]] [] []).skip_count = 0 :=
  (seq_mode_skips_extraction oracle0 cfgSeq st0 [[exS1]] [] [] ["rg"] region0 ""
    rfl rfl).2.1
